import Mathlib

/-!
Verification development for the entropy-production estimation library
(`methods_EP_multipartite.py`, `methods_EP_multipartite2.py`,
`methods_EP_parallel.py`).  The Python tensor code is shallowly embedded
over real vectors `Fin n → ℝ` and matrices `Matrix (Fin n) (Fin t) ℝ`.
-/

open Matrix

/-! ### Model of `torch.linalg.lstsq`

The library call `torch.linalg.lstsq(A, b)` returns the minimum-norm
least-squares solution of `A x = b`.  Over the reals this solution is the
unique vector `x` satisfying the normal equations `Aᵀ A x = Aᵀ b` that lies
in the row space of `A` (the range of `Aᵀ`).  We define it by that unique
characterisation. -/

/-- Predicate: `x` is the minimum-norm least-squares solution of `A x = b`,
characterised by the normal equations together with membership in the row
space of `A`. -/
def IsLstsqSol {m n : ℕ} (A : Matrix (Fin m) (Fin n) ℝ) (b : Fin m → ℝ)
    (x : Fin n → ℝ) : Prop :=
  (Aᵀ * A) *ᵥ x = Aᵀ *ᵥ b ∧ x ∈ LinearMap.range Aᵀ.mulVecLin

/-- Auxiliary identity: the quadratic form of the Gram matrix is the squared
norm of `A *ᵥ x`. -/
lemma dotProduct_gram {m n : ℕ} (A : Matrix (Fin m) (Fin n) ℝ) (x : Fin n → ℝ) :
    x ⬝ᵥ ((Aᵀ * A) *ᵥ x) = (A *ᵥ x) ⬝ᵥ (A *ᵥ x) := by
  rw [← Matrix.mulVec_mulVec, Matrix.dotProduct_mulVec, Matrix.vecMul_transpose]

/-- A vector annihilated by the Gram matrix is annihilated by `A`. -/
lemma mulVec_eq_zero_of_gram {m n : ℕ} (A : Matrix (Fin m) (Fin n) ℝ)
    (x : Fin n → ℝ) (h : (Aᵀ * A) *ᵥ x = 0) : A *ᵥ x = 0 := by
  have h0 : (A *ᵥ x) ⬝ᵥ (A *ᵥ x) = 0 := by
    rw [← dotProduct_gram, h, Matrix.dotProduct_zero]
  exact Matrix.dotProduct_self_eq_zero.mp h0

/-- A vector in the row space of `A` that is annihilated by `A` is zero. -/
lemma eq_zero_of_mem_row_space {m n : ℕ} (A : Matrix (Fin m) (Fin n) ℝ)
    (x : Fin n → ℝ) (hx : x ∈ LinearMap.range Aᵀ.mulVecLin)
    (h : A *ᵥ x = 0) : x = 0 := by
  obtain ⟨w, hw⟩ := hx
  have h0 : x ⬝ᵥ x = 0 := by
    have hxw : x = Aᵀ *ᵥ w := by rw [← hw]; rfl
    calc x ⬝ᵥ x = (Aᵀ *ᵥ w) ⬝ᵥ x := by rw [← hxw]
    _ = (w ᵥ* A) ⬝ᵥ x := by rw [Matrix.mulVec_transpose]
    _ = w ⬝ᵥ (A *ᵥ x) := by rw [Matrix.dotProduct_mulVec]
    _ = 0 := by rw [h, Matrix.dotProduct_zero]
  exact Matrix.dotProduct_self_eq_zero.mp h0

/-- Existence and uniqueness of the minimum-norm least-squares solution. -/
lemma isLstsqSol_existsUnique {m n : ℕ} (A : Matrix (Fin m) (Fin n) ℝ)
    (b : Fin m → ℝ) : ∃! x, IsLstsqSol A b x := by
  classical
  set W : Submodule ℝ (Fin n → ℝ) := LinearMap.range Aᵀ.mulVecLin with hW
  have hstab : ∀ x ∈ W, (Aᵀ * A).mulVecLin x ∈ W := by
    intro x _
    exact ⟨A *ᵥ x, by simp [Matrix.mulVecLin_apply, Matrix.mulVec_mulVec]⟩
  set φ : W →ₗ[ℝ] W := ((Aᵀ * A).mulVecLin).restrict hstab with hφ
  have hinj : Function.Injective φ := by
    intro x y hxy
    have hsub : (Aᵀ * A).mulVecLin (x.1 - y.1) = 0 := by
      have : (φ x).1 = (φ y).1 := by rw [hxy]
      have hv : (Aᵀ * A).mulVecLin x.1 = (Aᵀ * A).mulVecLin y.1 := this
      rw [map_sub, hv, sub_self]
    have hz : A *ᵥ (x.1 - y.1) = 0 :=
      mulVec_eq_zero_of_gram A _ (by simpa only [Matrix.mulVecLin_apply] using hsub)
    have hmem : x.1 - y.1 ∈ W := W.sub_mem x.2 y.2
    have h0 : x.1 - y.1 = 0 := eq_zero_of_mem_row_space A _ hmem hz
    exact Subtype.ext (sub_eq_zero.mp h0)
  have hsurj : Function.Surjective φ := LinearMap.injective_iff_surjective.mp hinj
  have hbW : Aᵀ *ᵥ b ∈ W := ⟨b, rfl⟩
  obtain ⟨x, hx⟩ := hsurj ⟨Aᵀ *ᵥ b, hbW⟩
  refine ⟨x.1, ⟨?_, x.2⟩, ?_⟩
  · have : (φ x).1 = Aᵀ *ᵥ b := by rw [hx]
    simpa [Matrix.mulVecLin_apply] using this
  · intro y hy
    have hsub : (Aᵀ * A) *ᵥ (y - x.1) = 0 := by
      have hx' : (Aᵀ * A) *ᵥ x.1 = Aᵀ *ᵥ b := by
        have : (φ x).1 = Aᵀ *ᵥ b := by rw [hx]
        simpa [Matrix.mulVecLin_apply] using this
      have : (Aᵀ * A).mulVecLin (y - x.1) = 0 := by
        rw [map_sub]
        simp only [Matrix.mulVecLin_apply]
        rw [hy.1, hx', sub_self]
      simpa only [Matrix.mulVecLin_apply] using this
    have hz : A *ᵥ (y - x.1) = 0 := mulVec_eq_zero_of_gram A _ hsub
    have hmem : y - x.1 ∈ W := W.sub_mem hy.2 x.2
    have h0 : y - x.1 = 0 := eq_zero_of_mem_row_space A _ hmem hz
    exact sub_eq_zero.mp h0

/-- Model of `torch.linalg.lstsq`: the minimum-norm least-squares solution
of `A x = b`. -/
noncomputable def lstsq {m n : ℕ} (A : Matrix (Fin m) (Fin n) ℝ)
    (b : Fin m → ℝ) : Fin n → ℝ :=
  (isLstsqSol_existsUnique A b).exists.choose

lemma lstsq_isSol {m n : ℕ} (A : Matrix (Fin m) (Fin n) ℝ) (b : Fin m → ℝ) :
    IsLstsqSol A b (lstsq A b) :=
  (isLstsqSol_existsUnique A b).exists.choose_spec

lemma lstsq_unique {m n : ℕ} (A : Matrix (Fin m) (Fin n) ℝ) (b : Fin m → ℝ)
    (x : Fin n → ℝ) (hx : IsLstsqSol A b x) : lstsq A b = x :=
  (isLstsqSol_existsUnique A b).unique (lstsq_isSol A b) hx

/-- A zero right-hand side yields the zero solution. -/
lemma lstsq_zero {m n : ℕ} (A : Matrix (Fin m) (Fin n) ℝ) :
    lstsq A 0 = 0 :=
  lstsq_unique A 0 0 ⟨by simp, Submodule.zero_mem _⟩

/-- On an invertible square system, `lstsq` returns the exact solution. -/
lemma lstsq_mulVec_of_isUnit {m : ℕ} (A : Matrix (Fin m) (Fin m) ℝ)
    (b : Fin m → ℝ) (h : IsUnit A.det) : A *ᵥ lstsq A b = b := by
  have hn := (lstsq_isSol A b).1
  have hATA : Aᵀ *ᵥ (A *ᵥ lstsq A b) = Aᵀ *ᵥ b := by
    rw [Matrix.mulVec_mulVec]; exact hn
  have hT : IsUnit Aᵀ.det := by rw [Matrix.det_transpose]; exact h
  have happ := congrArg (fun v => (Aᵀ)⁻¹ *ᵥ v) hATA
  simp only [Matrix.mulVec_mulVec] at happ
  rw [← Matrix.mul_assoc, Matrix.nonsing_inv_mul _ hT, one_mul,
    Matrix.one_mulVec] at happ
  exact happ

/-! ### Embedding of `methods_EP_multipartite2.py`

Sample matrices are `S : Matrix (Fin (n+1)) (Fin t) ℝ` with `N = n + 1`
spins and `t` repetitions; the reference spin is `i : Fin (n+1)`, and index
removal produces vectors over `Fin n`.  Removing row `i` is composition with
`Fin.succAbove i`, which is exactly `torch.cat((A[:i], A[i+1:]))`. -/

namespace Multipartite2

/-- Source `exp_EP_spin_model` (revised version): `J[i, :] @ Da`. -/
def exp_EP_spin_model {N : ℕ} (Da : Fin N → ℝ) (J : Matrix (Fin N) (Fin N) ℝ)
    (i : Fin N) : ℝ :=
  J i ⬝ᵥ Da

/-- Source `correlations`: `Da[j] = (1/T) Σ_r (-2 S[i,r]) S[j,r]`. -/
noncomputable def correlations {n t : ℕ} (S : Matrix (Fin (n + 1)) (Fin t) ℝ)
    (i : Fin (n + 1)) : Fin (n + 1) → ℝ :=
  fun j => (∑ r, (-2 * S i r) * S j r) / t

/-- Source `correlations4`: `K = (4 S) Sᵀ / T`. -/
noncomputable def correlations4 {n t : ℕ} (S : Matrix (Fin (n + 1)) (Fin t) ℝ)
    (_i : Fin (n + 1)) : Matrix (Fin (n + 1)) (Fin (n + 1)) ℝ :=
  Matrix.of fun j k => (∑ r, (4 * S j r) * S k r) / t

/-- Tilting field `thf[r] = (-2 S[i,r]) · (theta ⬝ S_without_i[:,r])`, the
expression shared by `correlations_theta`, `correlations4_theta` and
`log_norm_theta` in the source. -/
def thf {n t : ℕ} (S : Matrix (Fin (n + 1)) (Fin t) ℝ) (theta : Fin n → ℝ)
    (i : Fin (n + 1)) : Fin t → ℝ :=
  fun r => (-2 * S i r) * ∑ a, theta a * S (i.succAbove a) r

/-- Source `correlations_theta`: reweighted pairwise correlations,
unnormalised. -/
noncomputable def correlations_theta {n t : ℕ} (S : Matrix (Fin (n + 1)) (Fin t) ℝ)
    (theta : Fin n → ℝ) (i : Fin (n + 1)) : Fin (n + 1) → ℝ :=
  fun j => (∑ r, (-(-2 * S i r) * Real.exp (-thf S theta i r)) * S j r) / t

/-- Source `correlations4_theta`: reweighted 4th-order correlations,
unnormalised. -/
noncomputable def correlations4_theta {n t : ℕ} (S : Matrix (Fin (n + 1)) (Fin t) ℝ)
    (theta : Fin n → ℝ) (i : Fin (n + 1)) :
    Matrix (Fin (n + 1)) (Fin (n + 1)) ℝ :=
  Matrix.of fun j k => (∑ r, (4 * Real.exp (-thf S theta i r) * S j r) * S k r) / t

/-- Source `log_norm_theta`: `logsumexp(-thf) - log(T)`; `torch.logsumexp`
computes `log Σ_r exp(-thf[r])` (with an internal max-shift that does not
change the mathematical value). -/
noncomputable def log_norm_theta {n t : ℕ} (S : Matrix (Fin (n + 1)) (Fin t) ℝ)
    (theta : Fin n → ℝ) (i : Fin (n + 1)) : ℝ :=
  Real.log (∑ r, Real.exp (-thf S theta i r)) - Real.log t

/-- Source `K_nodiag`: remove row `i` and column `i` from `Ks`. -/
def K_nodiag {n : ℕ} (Ks : Matrix (Fin (n + 1)) (Fin (n + 1)) ℝ)
    (i : Fin (n + 1)) : Matrix (Fin n) (Fin n) ℝ :=
  Matrix.of fun j k => Ks (i.succAbove j) (i.succAbove k)

/-- Source `remove_i`: remove entry `i` from a vector. -/
def remove_i {n : ℕ} (A : Fin (n + 1) → ℝ) (i : Fin (n + 1)) : Fin n → ℝ :=
  fun j => A (i.succAbove j)

/-- Source `solve_linear_theta` (authoritative version): strip index `i`,
form `rhs = Dai - Dai_th`, add the adaptive Tikhonov term
`alpha = 1e-4 · trace / len` to the stripped curvature matrix, and return the
`torch.linalg.lstsq` solution. -/
noncomputable def solve_linear_theta {n : ℕ} (Da Da_th : Fin (n + 1) → ℝ)
    (Ks_th : Matrix (Fin (n + 1)) (Fin (n + 1)) ℝ) (i : Fin (n + 1)) :
    Fin n → ℝ :=
  let Dai := remove_i Da i
  let Dai_th := remove_i Da_th i
  let Ks_no_diag_th := K_nodiag Ks_th i
  let rhs_th := Dai - Dai_th
  let alpha := 1e-4 * Matrix.trace Ks_no_diag_th / n
  lstsq (Ks_no_diag_th + alpha • (1 : Matrix (Fin n) (Fin n) ℝ)) rhs_th

/-- Source `get_EP_Newton`: one-step Newton and MTUR estimates for spin `i`;
returns `(sig_N1, sig_MTUR, theta, Da)`. -/
noncomputable def get_EP_Newton {n t : ℕ} (S : Matrix (Fin (n + 1)) (Fin t) ℝ)
    (i : Fin (n + 1)) : ℝ × ℝ × (Fin n → ℝ) × (Fin (n + 1) → ℝ) :=
  let Da := correlations S i
  let Ks := Matrix.of fun j k => correlations4 S i j k - Da j * Da k
  let theta := solve_linear_theta Da (-Da) Ks i
  let Dai := remove_i Da i
  let lnZ := log_norm_theta S theta i
  let sig_MTUR := theta ⬝ᵥ Dai
  let sig_N1 := (∑ j, theta j * Dai j) - lnZ
  (sig_N1, sig_MTUR, theta, Da)

/-- Source `get_EP_Newton2`: one Newton-Raphson refinement of `theta_lin`;
returns `(sig_N2, theta_lin2)`.  The unused local `t_min = theta.min()` of
the source is not modelled. -/
noncomputable def get_EP_Newton2 {n t : ℕ} (S : Matrix (Fin (n + 1)) (Fin t) ℝ)
    (theta_lin : Fin n → ℝ) (Da : Fin (n + 1) → ℝ) (i : Fin (n + 1)) :
    ℝ × (Fin n → ℝ) :=
  let Z := Real.exp (log_norm_theta S theta_lin i)
  let Da_th := fun j => correlations_theta S theta_lin i j / Z
  let Ks_th := Matrix.of fun j k =>
    correlations4_theta S theta_lin i j k / Z - Da_th j * Da_th k
  let theta_lin2 := solve_linear_theta Da Da_th Ks_th i
  let theta := theta_lin + theta_lin2
  let Dai := remove_i Da i
  let sig_N2 := (∑ j, theta j * Dai j) - log_norm_theta S theta i
  (sig_N2, theta_lin2)

end Multipartite2

/-! ### Embedding of `methods_EP_multipartite.py` (superseded first version)

Only the parts needed by the claims are embedded. -/

namespace Multipartite

/-- Source `exp_EP_spin_model` (original version):
`sum((J[i, :] - J[:, i]) * Da) / 2`. -/
noncomputable def exp_EP_spin_model {N : ℕ} (Da : Fin N → ℝ)
    (J : Matrix (Fin N) (Fin N) ℝ) (i : Fin N) : ℝ :=
  (∑ j, (J i j - J j i) * Da j) / 2

end Multipartite

/-! ### Embedding of `methods_EP_parallel.py` -/

namespace Parallel

/-- Tolerance actually passed to the LBFGS optimizer by `minimize2`, from
`if tol is None or tol >= 1e-6: tol = 1e-6` (the optimizer call itself is
the external `torch.optim.LBFGS`). -/
noncomputable def minimize2_tol (tol : Option ℝ) : ℝ :=
  match tol with
  | none => 1e-6
  | some x => if 1e-6 ≤ x then 1e-6 else x

/-- Row-major rank of the strictly-upper-triangular position `(j, k)` in the
pair list produced by `torch.triu_indices(N, N, offset=1)`. -/
def pairRank (N j k : ℕ) : ℕ :=
  (∑ a ∈ Finset.range j, (N - 1 - a)) + (k - j - 1)

/-- Counting all strictly-upper-triangular positions of an `N × N` matrix. -/
lemma sum_range_sub (N : ℕ) :
    ∑ a ∈ Finset.range N, (N - 1 - a) = N * (N - 1) / 2 := by
  have hr := Finset.sum_range_reflect (fun a => a) N
  have hg := Finset.sum_range_id_mul_two N
  omega

/-- The rank of a strictly-upper-triangular position is a valid index into
the compressed parameter vector. -/
lemma pairRank_lt {N j k : ℕ} (hjk : j < k) (hk : k < N) :
    pairRank N j k < N * (N - 1) / 2 := by
  unfold pairRank
  have h1 : k - j - 1 < N - 1 - j := by omega
  calc (∑ a ∈ Finset.range j, (N - 1 - a)) + (k - j - 1)
      < (∑ a ∈ Finset.range j, (N - 1 - a)) + (N - 1 - j) :=
        Nat.add_lt_add_left h1 _
    _ = ∑ a ∈ Finset.range (j + 1), (N - 1 - a) :=
        (Finset.sum_range_succ _ j).symm
    _ ≤ ∑ a ∈ Finset.range N, (N - 1 - a) :=
        Finset.sum_le_sum_of_subset (Finset.range_subset.mpr (by omega))
    _ = N * (N - 1) / 2 := sum_range_sub N

/-- Matrix `th` built inside `MaxEntObjective.forward`:
`th[triu_indices[0], triu_indices[1]] = theta`, zero elsewhere. -/
def buildTh (N : ℕ) (theta : Fin (N * (N - 1) / 2) → ℝ) :
    Matrix (Fin N) (Fin N) ℝ :=
  Matrix.of fun j k =>
    if h : (j : ℕ) < (k : ℕ) then theta ⟨pairRank N j k, pairRank_lt h k.isLt⟩
    else 0

/-- Row-major rank of the off-diagonal position `(j, k)` among the positions
selected by the boolean mask `~torch.eye(N)`. -/
def offDiagRank (N j k : ℕ) : ℕ :=
  j * (N - 1) + (if k < j then k else k - 1)

/-- The rank of an off-diagonal position is a valid index into the flattened
input of `expand_theta`. -/
lemma offDiagRank_lt {N j k : ℕ} (hjk : j ≠ k) (hj : j < N) (hk : k < N) :
    offDiagRank N j k < N * (N - 1) := by
  unfold offDiagRank
  have h1 : (if k < j then k else k - 1) < N - 1 := by split <;> omega
  calc j * (N - 1) + (if k < j then k else k - 1)
      < j * (N - 1) + (N - 1) := Nat.add_lt_add_left h1 _
    _ = (j + 1) * (N - 1) := by ring
    _ ≤ N * (N - 1) := Nat.mul_le_mul_right _ (by omega)

/-- Source `expand_theta`: `N` is the first dimension of the 2-D input, and
the boolean-mask assignment `full_theta[~torch.eye(N)] = theta.flatten()`
writes the flattened entries into all `N (N-1)` off-diagonal slots in
row-major order.  `thetaFlat` is the flattened input tensor. -/
def expand_theta {N : ℕ} (thetaFlat : Fin (N * (N - 1)) → ℝ) :
    Matrix (Fin N) (Fin N) ℝ :=
  Matrix.of fun j k =>
    if h : (j : ℕ) = (k : ℕ) then 0
    else thetaFlat ⟨offDiagRank N j k, offDiagRank_lt h j.isLt k.isLt⟩

/-- Source `MaxEntObjective.forward`: the stabilised MaxEnt objective for the
antisymmetric model.  The sample count is written `t + 1` because
`torch.min` requires a nonempty tensor. -/
noncomputable def maxEntObjective (N t : ℕ) (theta : Fin (N * (N - 1) / 2) → ℝ)
    (S S1 : Matrix (Fin N) (Fin (t + 1)) ℝ) : ℝ :=
  let th := buildTh N theta
  let thS := (th - thᵀ) * S
  let thf_odd : Fin (t + 1) → ℝ := fun r => ∑ j, S1 j r * thS j r
  let thf_min := Finset.univ.inf' Finset.univ_nonempty thf_odd
  ((∑ r, thf_odd r) / (t + 1) + thf_min
    - Real.log ((∑ r, Real.exp (-thf_odd r + thf_min)) / (t + 1))) / N

end Parallel

/-! ### Shared concrete inputs and helper lemmas -/

/-- Concrete 2-spin, 2-sample Rademacher matrix used by several checks. -/
def S2 : Matrix (Fin 2) (Fin 2) ℝ := Matrix.of ![![1, 1], ![1, -1]]

/-- With `theta = 0` the tilting field vanishes identically. -/
lemma thf_zero {n t : ℕ} (S : Matrix (Fin (n + 1)) (Fin t) ℝ)
    (i : Fin (n + 1)) : Multipartite2.thf S 0 i = 0 := by
  funext r
  simp [Multipartite2.thf]

/-- Evaluation helper: `log_norm_theta` at `theta = 0` is `0` for a nonempty
sample set. -/
lemma log_norm_theta_zero_helper {n t : ℕ} (S : Matrix (Fin (n + 1)) (Fin t) ℝ)
    (i : Fin (n + 1)) (_ht : 1 ≤ t) :
    Multipartite2.log_norm_theta S 0 i = 0 := by
  unfold Multipartite2.log_norm_theta
  rw [thf_zero]
  simp

/-- Zero right-hand side collapses the regularised solve to the zero
vector. -/
lemma solve_linear_theta_of_eq {n : ℕ} (Da Da_th : Fin (n + 1) → ℝ)
    (Ks_th : Matrix (Fin (n + 1)) (Fin (n + 1)) ℝ) (i : Fin (n + 1))
    (h : Multipartite2.remove_i Da i = Multipartite2.remove_i Da_th i) :
    Multipartite2.solve_linear_theta Da Da_th Ks_th i = 0 := by
  show lstsq
      (Multipartite2.K_nodiag Ks_th i
        + (1e-4 * Matrix.trace (Multipartite2.K_nodiag Ks_th i) / n) •
          (1 : Matrix (Fin n) (Fin n) ℝ))
      (Multipartite2.remove_i Da i - Multipartite2.remove_i Da_th i) = 0
  rw [h, sub_self]
  exact lstsq_zero _

/-! ### Claim theorems -/

/-- C9: for every sample matrix with at least one sample, `log_norm_theta`
applied to the zero parameter vector returns exactly `0`: the tilting field
is identically zero, so `logsumexp(-thf) = log T` and subtracting `log T`
leaves `log 1 = 0`. -/
theorem log_norm_theta_zero_theta {n t : ℕ} (S : Matrix (Fin (n + 1)) (Fin t) ℝ)
    (i : Fin (n + 1)) (ht : 1 ≤ t) :
    Multipartite2.log_norm_theta S 0 i = 0 :=
  log_norm_theta_zero_helper S i ht

theorem log_norm_theta_zero_theta_witness :
    1 ≤ 1 ∧ Multipartite2.log_norm_theta (Matrix.of ![![(1 : ℝ)], ![1]]) 0 (0 : Fin 2) = 0 :=
  ⟨le_refl 1, log_norm_theta_zero_theta (Matrix.of ![![(1 : ℝ)], ![1]]) 0 (le_refl 1)⟩

/-- C3: `get_EP_Newton` returns `sig_MTUR` equal to the dot product of the
returned `theta` with `Da` minus entry `i`, and `sig_N1` equal to that same
dot product minus `log_norm_theta(S, theta, i)`; hence
`sig_N1 = sig_MTUR - log_norm_theta(S, theta, i)` for the returned `theta`. -/
theorem get_EP_Newton_spec {n t : ℕ} (S : Matrix (Fin (n + 1)) (Fin t) ℝ)
    (i : Fin (n + 1)) :
    (Multipartite2.get_EP_Newton S i).2.1 =
      (Multipartite2.get_EP_Newton S i).2.2.1 ⬝ᵥ
        Multipartite2.remove_i (Multipartite2.get_EP_Newton S i).2.2.2 i
    ∧ (Multipartite2.get_EP_Newton S i).1 =
      (Multipartite2.get_EP_Newton S i).2.1 -
        Multipartite2.log_norm_theta S (Multipartite2.get_EP_Newton S i).2.2.1 i :=
  ⟨rfl, rfl⟩

/-- C2: `solve_linear_theta` removes index `i` from `Da` and `Da_th` and
row/column `i` from `Ks_th`, forms `rhs = Da_i - Da_th_i`, and returns the
least-squares solution of `(Ks_th_nodiag + alpha I) dtheta = rhs` with
`alpha = 1e-4 · trace(Ks_th_nodiag)/(N-1)`; when the regularised matrix is
invertible the returned vector solves the system exactly. -/
theorem solve_linear_theta_spec {n : ℕ} (Da Da_th : Fin (n + 1) → ℝ)
    (Ks_th : Matrix (Fin (n + 1)) (Fin (n + 1)) ℝ) (i : Fin (n + 1)) :
    Multipartite2.solve_linear_theta Da Da_th Ks_th i =
      lstsq (Multipartite2.K_nodiag Ks_th i
          + (1e-4 * Matrix.trace (Multipartite2.K_nodiag Ks_th i) / n) •
            (1 : Matrix (Fin n) (Fin n) ℝ))
        (Multipartite2.remove_i Da i - Multipartite2.remove_i Da_th i)
    ∧ (IsUnit (Multipartite2.K_nodiag Ks_th i
          + (1e-4 * Matrix.trace (Multipartite2.K_nodiag Ks_th i) / n) •
            (1 : Matrix (Fin n) (Fin n) ℝ)).det →
        (Multipartite2.K_nodiag Ks_th i
          + (1e-4 * Matrix.trace (Multipartite2.K_nodiag Ks_th i) / n) •
            (1 : Matrix (Fin n) (Fin n) ℝ)) *ᵥ
          Multipartite2.solve_linear_theta Da Da_th Ks_th i =
        Multipartite2.remove_i Da i - Multipartite2.remove_i Da_th i) :=
  ⟨rfl, fun h => lstsq_mulVec_of_isUnit _ _ h⟩

/-- C6: the authoritative `solve_linear_theta` performs one regularised
least-squares solve and returns a solution for every input, singular or not:
the returned vector always satisfies the least-squares characterisation of
the regularised system (total function, no exception path, no retry loop). -/
theorem solve_linear_theta_total {n : ℕ} (Da Da_th : Fin (n + 1) → ℝ)
    (Ks_th : Matrix (Fin (n + 1)) (Fin (n + 1)) ℝ) (i : Fin (n + 1)) :
    IsLstsqSol
      (Multipartite2.K_nodiag Ks_th i
        + (1e-4 * Matrix.trace (Multipartite2.K_nodiag Ks_th i) / n) •
          (1 : Matrix (Fin n) (Fin n) ℝ))
      (Multipartite2.remove_i Da i - Multipartite2.remove_i Da_th i)
      (Multipartite2.solve_linear_theta Da Da_th Ks_th i) :=
  lstsq_isSol _ _

/-- C8: the output of `solve_linear_theta` does not depend on the entries at
index `i` of `Da` and `Da_th` nor on row/column `i` of `Ks_th`: two inputs
agreeing everywhere else produce identical `dtheta`. -/
theorem solve_linear_theta_ignores_index {n : ℕ}
    (Da Da' Da_th Da_th' : Fin (n + 1) → ℝ)
    (Ks Ks' : Matrix (Fin (n + 1)) (Fin (n + 1)) ℝ) (i : Fin (n + 1))
    (hDa : ∀ j, j ≠ i → Da j = Da' j)
    (hDath : ∀ j, j ≠ i → Da_th j = Da_th' j)
    (hK : ∀ j k, j ≠ i → k ≠ i → Ks j k = Ks' j k) :
    Multipartite2.solve_linear_theta Da Da_th Ks i =
      Multipartite2.solve_linear_theta Da' Da_th' Ks' i := by
  have h1 : Multipartite2.remove_i Da i = Multipartite2.remove_i Da' i :=
    funext fun j => hDa _ (Fin.succAbove_ne i j)
  have h2 : Multipartite2.remove_i Da_th i = Multipartite2.remove_i Da_th' i :=
    funext fun j => hDath _ (Fin.succAbove_ne i j)
  have h3 : Multipartite2.K_nodiag Ks i = Multipartite2.K_nodiag Ks' i := by
    ext j k
    exact hK _ _ (Fin.succAbove_ne i j) (Fin.succAbove_ne i k)
  unfold Multipartite2.solve_linear_theta
  rw [h1, h2, h3]

theorem solve_linear_theta_ignores_index_witness :
    Multipartite2.solve_linear_theta ![10, 1] ![30, 2]
        (Matrix.of ![![7, 8], ![9, 3]]) 0 =
      Multipartite2.solve_linear_theta ![20, 1] ![40, 2]
        (Matrix.of ![![0, 5], ![6, 3]]) 0 := by
  apply solve_linear_theta_ignores_index
  all_goals simp [Fin.forall_fin_two]

/-- C10: when `J` is antisymmetric the original and revised
`exp_EP_spin_model` agree: `sum((J[i,:] - J[:,i]) * Da) / 2 = J[i,:] @ Da`. -/
theorem exp_EP_spin_model_equiv {N : ℕ} (Da : Fin N → ℝ)
    (J : Matrix (Fin N) (Fin N) ℝ) (i : Fin N) (hJ : J = -Jᵀ) :
    Multipartite.exp_EP_spin_model Da J i =
      Multipartite2.exp_EP_spin_model Da J i := by
  have hjk : ∀ j k, J j k = -J k j := by
    intro j k
    conv_lhs => rw [hJ]
    simp
  simp only [Multipartite.exp_EP_spin_model, Multipartite2.exp_EP_spin_model,
    Matrix.dotProduct]
  have hterm : ∀ j, (J i j - J j i) * Da j = 2 * (J i j * Da j) := by
    intro j
    rw [hjk j i]
    ring
  rw [Finset.sum_congr rfl fun j _ => hterm j, ← Finset.mul_sum]
  ring

theorem exp_EP_spin_model_equiv_witness :
    Multipartite.exp_EP_spin_model ![3, 4] (Matrix.of ![![0, 1], ![-1, 0]]) 0 =
      Multipartite2.exp_EP_spin_model ![3, 4] (Matrix.of ![![0, 1], ![-1, 0]]) 0 := by
  apply exp_EP_spin_model_equiv
  ext i j
  fin_cases i <;> fin_cases j <;>
    norm_num [Matrix.transpose, Matrix.vecHead, Matrix.vecTail, Matrix.of_apply,
      Matrix.neg_apply]

/-- C5 counterexample: a requested tolerance of `1e-9` is below the alleged
floor `1e-6`, yet it is passed through unchanged, so the tolerance given to
the optimizer is below `1e-6`. -/
theorem minimize2_tol_below_floor :
    Parallel.minimize2_tol (some 1e-9) = 1e-9 ∧ ((1e-9 : ℝ) < 1e-6) := by
  constructor
  · show (if (1e-6 : ℝ) ≤ 1e-9 then (1e-6 : ℝ) else 1e-9) = 1e-9
    rw [if_neg (by norm_num)]
  · norm_num

/-- C5 (amended): `minimize2` enforces a ceiling, not a floor: the tolerance
passed to the optimizer is `1e-6` when the requested `tol` is `None` or at
least `1e-6`, is the requested value when below `1e-6`, and hence never
exceeds `1e-6`. -/
theorem minimize2_tol_ceiling (x : ℝ) :
    Parallel.minimize2_tol none = 1e-6
    ∧ Parallel.minimize2_tol (some x) ≤ 1e-6
    ∧ (1e-6 ≤ x → Parallel.minimize2_tol (some x) = 1e-6)
    ∧ (x < 1e-6 → Parallel.minimize2_tol (some x) = x) := by
  refine ⟨rfl, ?_, fun h => ?_, fun h => ?_⟩
  · show (if (1e-6 : ℝ) ≤ x then (1e-6 : ℝ) else x) ≤ 1e-6
    split
    · exact le_refl _
    · exact le_of_not_le (by assumption)
  · show (if (1e-6 : ℝ) ≤ x then (1e-6 : ℝ) else x) = 1e-6
    exact if_pos h
  · show (if (1e-6 : ℝ) ≤ x then (1e-6 : ℝ) else x) = x
    exact if_neg (not_le.mpr h)

theorem minimize2_tol_ceiling_witness :
    Parallel.minimize2_tol (some (2e-6)) = 1e-6
    ∧ Parallel.minimize2_tol (some (5e-7)) = 5e-7 :=
  ⟨(minimize2_tol_ceiling (2e-6)).2.2.1 (by norm_num),
   (minimize2_tol_ceiling (5e-7)).2.2.2 (by norm_num)⟩

/-- C1 counterexample: `expand_theta` fills every off-diagonal slot
independently, so its output is not antisymmetric: on the flattened input
`[1, 2]` with `N = 2` the entry `(0,1)` is `1` while `-(Thᵀ)` has `-2`
there. -/
theorem expand_theta_not_antisymmetric :
    Parallel.expand_theta (N := 2) ![1, 2] ≠
      -(Parallel.expand_theta (N := 2) ![1, 2])ᵀ := by
  intro h
  have h01 := congrFun (congrFun h 0) 1
  have e1 : Parallel.expand_theta (N := 2) ![1, 2] 0 1 = 1 := rfl
  have e2 : (-(Parallel.expand_theta (N := 2) ![1, 2])ᵀ) 0 1 = -2 := rfl
  rw [e1, e2] at h01
  norm_num at h01

/-- C1 (amended): the MaxEnt objective's internal builder places the
compressed vector of length `N(N-1)/2` into the strict upper triangle of
`Th` and uses the full matrix `Th - Thᵀ`, which is antisymmetric for every
input; `expand_theta`, by contrast, fills all `N(N-1)` off-diagonal slots
with independent values and its output need not be antisymmetric. -/
theorem maxent_builder_antisymmetric (N : ℕ) (theta : Fin (N * (N - 1) / 2) → ℝ) :
    (Parallel.buildTh N theta - (Parallel.buildTh N theta)ᵀ)ᵀ =
      -(Parallel.buildTh N theta - (Parallel.buildTh N theta)ᵀ)
    ∧ (∀ j k : Fin N, ∀ h : (j : ℕ) < (k : ℕ),
        Parallel.buildTh N theta j k =
          theta ⟨Parallel.pairRank N j k, Parallel.pairRank_lt h k.isLt⟩)
    ∧ (∀ j k : Fin N, ¬((j : ℕ) < (k : ℕ)) →
        Parallel.buildTh N theta j k = 0) := by
  refine ⟨?_, ?_, ?_⟩
  · rw [Matrix.transpose_sub, Matrix.transpose_transpose, neg_sub]
  · intro j k h
    exact dif_pos h
  · intro j k h
    exact dif_neg h

theorem maxent_builder_antisymmetric_witness :
    ((Parallel.buildTh 2 ![3] - (Parallel.buildTh 2 ![3])ᵀ)ᵀ =
      -(Parallel.buildTh 2 ![3] - (Parallel.buildTh 2 ![3])ᵀ))
    ∧ Parallel.buildTh 2 ![3] 0 1 = 3
    ∧ Parallel.buildTh 2 ![3] 1 0 = 0 := by
  refine ⟨(maxent_builder_antisymmetric 2 ![3]).1, ?_,
    (maxent_builder_antisymmetric 2 ![3]).2.2 1 0 (by decide)⟩
  rw [(maxent_builder_antisymmetric 2 ![3]).2.1 0 1 (by decide)]
  exact Matrix.cons_val_fin_one _ _ _

/-- With the zero compressed vector the builder produces the zero matrix. -/
lemma buildTh_zero (N : ℕ) : Parallel.buildTh N 0 = 0 := by
  ext j k
  simp only [Parallel.buildTh, Matrix.of_apply, Matrix.zero_apply]
  split <;> simp

/-- Evaluation helper: the MaxEnt objective at `theta = 0` is `0` for every
pair of sample matrices — the `log T` contributions cancel because the
normalisation inside the `log` already divides by the sample count. -/
lemma maxEntObjective_zero_theta (N t : ℕ)
    (S S1 : Matrix (Fin N) (Fin (t + 1)) ℝ) :
    Parallel.maxEntObjective N t 0 S S1 = 0 := by
  unfold Parallel.maxEntObjective
  rw [buildTh_zero]
  have hT : ((t : ℝ) + 1) ≠ 0 := by positivity
  simp [Finset.inf'_const, Finset.sum_const, Finset.card_univ, div_self, hT]

/-- C4 counterexample: with `N = 2`, `T = 2`, Rademacher `S` and `S1 = -S`,
the unregularized objective at `theta = 0` is `0`, not the claimed
`log(T)/N = log(2)/2`. -/
theorem maxent_zero_theta_not_log_T :
    Parallel.maxEntObjective 2 1 0 S2 (-S2) ≠ Real.log 2 / 2 := by
  rw [maxEntObjective_zero_theta]
  intro h
  have h2 : (0 : ℝ) < Real.log 2 := Real.log_pos (by norm_num)
  linarith

/-- C4 (amended): for every `N ≥ 2`, `T ≥ 1`, `±1`-valued `S` and
`S1 = -S`, the unregularized MaxEnt objective at `theta = 0` equals `0`
(the `log T` contribution cancels because the stabilised term takes
`log` of a mean, which already divides by `T`). -/
theorem maxent_zero_theta_value {N t : ℕ}
    (S S1 : Matrix (Fin N) (Fin (t + 1)) ℝ) (_hN : 2 ≤ N)
    (_hS : ∀ j r, S j r = 1 ∨ S j r = -1) (_hS1 : S1 = -S) :
    Parallel.maxEntObjective N t 0 S S1 = 0 :=
  maxEntObjective_zero_theta N t S S1

theorem maxent_zero_theta_value_witness :
    Parallel.maxEntObjective 2 1 0 S2 (-S2) = 0 :=
  maxent_zero_theta_value S2 (-S2) (by norm_num)
    (by
      intro j r
      fin_cases j <;> fin_cases r <;> simp [S2])
    rfl

/-- C7: if `theta_lin` is a fixed point — the normalised reweighted
correlations agree with `Da` at every non-`i` entry — then `get_EP_Newton2`
returns `delta_theta = 0`, and `sig_N2` is the EP value computed directly
from `theta_lin`: `theta_lin · Da_{-i} - log_norm_theta(S, theta_lin, i)`. -/
theorem get_EP_Newton2_fixed_point {n t : ℕ}
    (S : Matrix (Fin (n + 1)) (Fin t) ℝ) (theta_lin : Fin n → ℝ)
    (Da : Fin (n + 1) → ℝ) (i : Fin (n + 1))
    (h : Multipartite2.remove_i
        (fun j => Multipartite2.correlations_theta S theta_lin i j /
          Real.exp (Multipartite2.log_norm_theta S theta_lin i)) i
      = Multipartite2.remove_i Da i) :
    (Multipartite2.get_EP_Newton2 S theta_lin Da i).2 = 0
    ∧ (Multipartite2.get_EP_Newton2 S theta_lin Da i).1 =
        (∑ j, theta_lin j * Multipartite2.remove_i Da i j)
          - Multipartite2.log_norm_theta S theta_lin i := by
  have key : Multipartite2.solve_linear_theta Da
      (fun j => Multipartite2.correlations_theta S theta_lin i j /
        Real.exp (Multipartite2.log_norm_theta S theta_lin i))
      (Matrix.of fun j k =>
        Multipartite2.correlations4_theta S theta_lin i j k /
            Real.exp (Multipartite2.log_norm_theta S theta_lin i) -
          Multipartite2.correlations_theta S theta_lin i j /
              Real.exp (Multipartite2.log_norm_theta S theta_lin i) *
            (Multipartite2.correlations_theta S theta_lin i k /
              Real.exp (Multipartite2.log_norm_theta S theta_lin i)))
      i = 0 :=
    solve_linear_theta_of_eq _ _ _ _ h.symm
  constructor
  · exact key
  · show (∑ j, (theta_lin + Multipartite2.solve_linear_theta Da
        (fun j => Multipartite2.correlations_theta S theta_lin i j /
          Real.exp (Multipartite2.log_norm_theta S theta_lin i))
        (Matrix.of fun j k =>
          Multipartite2.correlations4_theta S theta_lin i j k /
              Real.exp (Multipartite2.log_norm_theta S theta_lin i) -
            Multipartite2.correlations_theta S theta_lin i j /
                Real.exp (Multipartite2.log_norm_theta S theta_lin i) *
              (Multipartite2.correlations_theta S theta_lin i k /
                Real.exp (Multipartite2.log_norm_theta S theta_lin i)))
        i) j * Multipartite2.remove_i Da i j)
      - Multipartite2.log_norm_theta S
          (theta_lin + Multipartite2.solve_linear_theta Da
            (fun j => Multipartite2.correlations_theta S theta_lin i j /
              Real.exp (Multipartite2.log_norm_theta S theta_lin i))
            (Matrix.of fun j k =>
              Multipartite2.correlations4_theta S theta_lin i j k /
                  Real.exp (Multipartite2.log_norm_theta S theta_lin i) -
                Multipartite2.correlations_theta S theta_lin i j /
                    Real.exp (Multipartite2.log_norm_theta S theta_lin i) *
                  (Multipartite2.correlations_theta S theta_lin i k /
                    Real.exp (Multipartite2.log_norm_theta S theta_lin i)))
            i) i
      = (∑ j, theta_lin j * Multipartite2.remove_i Da i j)
          - Multipartite2.log_norm_theta S theta_lin i
    rw [key, add_zero]

theorem get_EP_Newton2_fixed_point_witness :
    (Multipartite2.get_EP_Newton2 S2 0 ![5, 0] 0).2 = 0
    ∧ (Multipartite2.get_EP_Newton2 S2 0 ![5, 0] 0).1 =
        (∑ j, (0 : Fin 1 → ℝ) j * Multipartite2.remove_i ![5, 0] 0 j)
          - Multipartite2.log_norm_theta S2 0 0 :=
  get_EP_Newton2_fixed_point S2 0 ![5, 0] 0 (by
    have hZ : Multipartite2.log_norm_theta S2 (0 : Fin 1 → ℝ) 0 = 0 :=
      log_norm_theta_zero_helper S2 0 (by norm_num)
    funext j
    fin_cases j
    simp [Multipartite2.remove_i, hZ, Multipartite2.correlations_theta,
      Multipartite2.thf, Fin.sum_univ_two, S2])

theorem solve_linear_theta_spec_witness :
    IsUnit ((Multipartite2.K_nodiag (Matrix.of ![![(0 : ℝ), 0], ![0, 2]]) 0
        + (1e-4 * Matrix.trace
              (Multipartite2.K_nodiag (Matrix.of ![![(0 : ℝ), 0], ![0, 2]]) 0) /
            ((1 : ℕ) : ℝ)) • (1 : Matrix (Fin 1) (Fin 1) ℝ)).det)
    ∧ (Multipartite2.K_nodiag (Matrix.of ![![(0 : ℝ), 0], ![0, 2]]) 0
        + (1e-4 * Matrix.trace
              (Multipartite2.K_nodiag (Matrix.of ![![(0 : ℝ), 0], ![0, 2]]) 0) /
            ((1 : ℕ) : ℝ)) • (1 : Matrix (Fin 1) (Fin 1) ℝ)) *ᵥ
        Multipartite2.solve_linear_theta ![0, 3] ![0, 1]
          (Matrix.of ![![(0 : ℝ), 0], ![0, 2]]) 0 =
      Multipartite2.remove_i ![0, 3] 0 - Multipartite2.remove_i ![0, 1] 0 := by
  have hK : Multipartite2.K_nodiag (Matrix.of ![![(0 : ℝ), 0], ![0, 2]]) 0 =
      Matrix.of ![![(2 : ℝ)]] := by
    ext j k
    fin_cases j
    fin_cases k
    simp [Multipartite2.K_nodiag]
  have hU : IsUnit ((Multipartite2.K_nodiag (Matrix.of ![![(0 : ℝ), 0], ![0, 2]]) 0
      + (1e-4 * Matrix.trace
            (Multipartite2.K_nodiag (Matrix.of ![![(0 : ℝ), 0], ![0, 2]]) 0) /
          ((1 : ℕ) : ℝ)) • (1 : Matrix (Fin 1) (Fin 1) ℝ)).det) := by
    rw [hK]
    norm_num [Matrix.det_fin_one, Matrix.trace_fin_one, Matrix.smul_apply,
      Matrix.one_apply, isUnit_iff_ne_zero]
  exact ⟨hU, (solve_linear_theta_spec ![0, 3] ![0, 1]
    (Matrix.of ![![(0 : ℝ), 0], ![0, 2]]) 0).2 hU⟩
